import Mathlib

/-!
Verification of the hybrid RAG retrieval core (`improved_rag_system.py`).

Shallow embedding of the `ImprovedRAGSystem` class: the chunker
(`smart_chunk_text`), metadata extractor (`extract_metadata`), query
enhancer (`enhance_query`), indexer (`process_documents`) and hybrid
retriever (`search`).  External collaborators (sentence segmenter,
tiktoken encoder, embedding model, Chroma vector store, BM25 scorer,
md5) are passed in as parameters, exactly as the spec's §6 collaborator
contracts describe them.  Python strings are modelled by Lean `String`
restricted to the ASCII fragment (in particular `str.lower` is the
ASCII case map).  Python floats are modelled by `ℚ`.
-/

namespace RAGSys

/-! ## Python string primitives (ASCII fragment) -/

/-- Validity of the code point obtained by adding 32 to an ASCII uppercase
letter, needed to build the lowercased character. -/
theorem lowC_valid (c : Char) (h : 65 ≤ c.toNat ∧ c.toNat ≤ 90) :
    UInt32.isValidChar (c.val + 32) := by
  have h2 : c.val.toNat ≤ 90 := h.2
  have h32 : (32 : UInt32).toNat = 32 := rfl
  have hadd : (c.val + 32).toNat = c.val.toNat + 32 := by
    rw [UInt32.toNat_add, h32]
    apply Nat.mod_eq_of_lt
    simp only [UInt32.size]
    omega
  show (c.val + 32).toNat.isValidChar
  rw [hadd]
  exact Or.inl (by omega)

/-- ASCII lowercase map on characters: models Python `str.lower` applied
to one character (the corpus and queries of the system are ASCII). -/
def lowC (c : Char) : Char :=
  if h : 65 ≤ c.toNat ∧ c.toNat ≤ 90 then Char.mk (c.val + 32) (lowC_valid c h)
  else c

theorem toNat_lowC (c : Char) :
    (lowC c).toNat = if 65 ≤ c.toNat ∧ c.toNat ≤ 90 then c.toNat + 32 else c.toNat := by
  unfold lowC
  split
  case isTrue h =>
    have h2 : c.val.toNat ≤ 90 := h.2
    have h32 : (32 : UInt32).toNat = 32 := rfl
    show (c.val + 32).toNat = c.val.toNat + 32
    rw [UInt32.toNat_add, h32]
    apply Nat.mod_eq_of_lt
    simp only [UInt32.size]
    omega
  case isFalse h => simp [h]

theorem lowC_eq_self (c : Char) (h : ¬(65 ≤ c.toNat ∧ c.toNat ≤ 90)) : lowC c = c := by
  unfold lowC
  rw [dif_neg h]

/-- Models Python `str.lower` (ASCII fragment). -/
def pyLower (s : String) : String := String.mk (s.data.map lowC)

/-- Whitespace test on a code point, used by `isPyWs`. -/
def isPyWsN (n : ℕ) : Bool :=
  n = 32 || n = 9 || n = 10 || n = 13 || n = 11 || n = 12

/-- The characters Python `str.split()` (no separator) splits on. -/
def isPyWs (c : Char) : Bool := isPyWsN c.toNat

theorem isPyWsN_eq_false {n : ℕ} (h : 33 ≤ n) : isPyWsN n = false := by
  simp only [isPyWsN, Bool.or_eq_false_iff, decide_eq_false_iff_not]
  omega

theorem isPyWs_lowC (c : Char) : isPyWs (lowC c) = isPyWs c := by
  have h := toNat_lowC c
  by_cases hc : 65 ≤ c.toNat ∧ c.toNat ≤ 90
  · rw [if_pos hc] at h
    unfold isPyWs
    rw [h, isPyWsN_eq_false (by omega), isPyWsN_eq_false (by omega)]
  · rw [if_neg hc] at h
    unfold isPyWs
    rw [h]

theorem lowC_lowC (c : Char) : lowC (lowC c) = lowC c := by
  by_cases h : 65 ≤ c.toNat ∧ c.toNat ≤ 90
  · have ht : (lowC c).toNat = c.toNat + 32 := by rw [toNat_lowC, if_pos h]
    have hn : ¬(65 ≤ (lowC c).toNat ∧ (lowC c).toNat ≤ 90) := by rw [ht]; omega
    exact lowC_eq_self _ hn
  · rw [lowC_eq_self c h]
    exact lowC_eq_self c h

/-- No character of the lowercased form is an ASCII uppercase letter. -/
theorem lowC_not_upper (c : Char) : ¬(65 ≤ (lowC c).toNat ∧ (lowC c).toNat ≤ 90) := by
  have h := toNat_lowC c
  by_cases hc : 65 ≤ c.toNat ∧ c.toNat ≤ 90
  · rw [if_pos hc] at h; omega
  · rw [if_neg hc] at h; omega

/-- Accumulator-based splitter behind `pySplit`; `acc` is the current word
read so far, in reverse. -/
def splitWsAux : List Char → List Char → List String
  | [], acc => if acc.isEmpty then [] else [String.mk acc.reverse]
  | c :: cs, acc =>
      if isPyWs c then
        (if acc.isEmpty then splitWsAux cs [] else String.mk acc.reverse :: splitWsAux cs [])
      else splitWsAux cs (c :: acc)

/-- Models Python `str.split()` with no argument: split on runs of
whitespace, discarding empty pieces. -/
def pySplit (s : String) : List String := splitWsAux s.data []

/-- Models `len(s.split())`: the whitespace-split token count of a string. -/
def wordCount (s : String) : ℕ := (pySplit s).length

/-- Substring test on character lists: `pat` occurs contiguously in `l`. -/
def listContains (l pat : List Char) : Bool :=
  match l with
  | [] => pat.isEmpty
  | _ :: rest => pat.isPrefixOf l || listContains rest pat

/-- Models the Python `pat in hay` substring test. -/
def strContains (hay pat : String) : Bool := listContains hay.data pat.data

/-- Models Python `str.strip()` (trim surrounding whitespace). -/
def pyStrip (s : String) : String :=
  String.mk (((s.data.dropWhile isPyWs).reverse.dropWhile isPyWs).reverse)

/-- Models Python `line.lstrip(c)` for a single strip character. -/
def pyLstrip (s : String) (c : Char) : String :=
  String.mk (s.data.dropWhile (fun x => x = c))

/-- Models Python `sep.join(l)`. -/
def pyJoin (sep : String) : List String → String
  | [] => ""
  | [x] => x
  | x :: xs => x ++ sep ++ pyJoin sep xs

/-- Models Python `os.path.basename`. -/
def pyBasename (p : String) : String :=
  match (p.splitOn "/").getLast? with
  | some x => x
  | none => p

/-- Models the Python slice `l[-n:]`.  Note the Python pitfall that is part
of the source semantics: for `n = 0` the slice is the whole list, not `[]`. -/
def pySliceLast {α : Type} (l : List α) (n : ℕ) : List α :=
  if n = 0 then l else l.drop (l.length - n)

/-- Models the Python slice `s[:n]` on a string (first `n` characters). -/
def pyTake (s : String) (n : ℕ) : String := String.mk (s.data.take n)

/-- Models Python `s.startswith(pre)`. -/
def pyStartsWith (s pre : String) : Bool := pre.data.isPrefixOf s.data

/-- Accumulator-based splitter behind `pyLines`. -/
def splitLinesAux : List Char → List Char → List String
  | [], acc => [String.mk acc.reverse]
  | c :: cs, acc =>
      if c = '\n' then String.mk acc.reverse :: splitLinesAux cs []
      else splitLinesAux cs (c :: acc)

/-- Models Python `s.split('\n')` (note `"".split('\n') == [""]`). -/
def pyLines (s : String) : List String := splitLinesAux s.data []

/-! ## Chunker (`smart_chunk_text`, source lines 34-70)

The tiktoken encoder `self.enc` is an external collaborator: it is
modelled as a pair of functions (`encode`, `decode`), per spec §6
("token counter ... plus an inverse token-id list → string"). -/

/-- The external token codec (`tiktoken` in the source). -/
structure Codec where
  encode : String → List ℕ
  decode : List ℕ → String

/-- One iteration of the `for sentence in sentences` loop of
`smart_chunk_text`.  State is `(chunks, current_chunk, current_tokens)`. -/
def chunkStep (enc : Codec) (chunk_size overlap : ℕ)
    (st : List String × String × ℕ) (sentence : String) :
    List String × String × ℕ :=
  let chunks := st.1
  let current_chunk := st.2.1
  let current_tokens := st.2.2
  let sentence_tokens := (enc.encode sentence).length
  if chunk_size < current_tokens + sentence_tokens then
    if current_chunk ≠ "" then
      let chunks := chunks ++ [pyStrip current_chunk]
      let tokens := enc.encode current_chunk
      if overlap < tokens.length then
        let overlap_tokens := pySliceLast tokens overlap
        let overlap_text := enc.decode overlap_tokens
        (chunks, overlap_text, overlap)
      else
        (chunks, current_chunk, tokens.length)
    else
      (chunks ++ [pyStrip sentence], "", 0)
  else
    (chunks, current_chunk ++ sentence ++ " ", current_tokens + sentence_tokens)

/-- Models `smart_chunk_text(text, chunk_size, overlap)`.  The call
`nltk.sent_tokenize(text)` is external (spec §6 sentence segmenter), so the
function takes the resulting sentence list as its input. -/
def smart_chunk_text (enc : Codec) (sentences : List String)
    (chunk_size : ℕ) (overlap : ℕ) : List String :=
  let st := sentences.foldl (chunkStep enc chunk_size overlap) ([], "", 0)
  if st.2.1 ≠ "" then st.1 ++ [pyStrip st.2.1] else st.1

/-- A concrete instantiation of the token codec for counterexamples and
witnesses: every character is one token. -/
def charCodec : Codec where
  encode s := s.data.map Char.toNat
  decode l := String.mk (l.map Char.ofNat)

/-! ## Claims C1 and C5: chunker properties

In the loop of `smart_chunk_text`, when `current_tokens + sentence_tokens
> chunk_size` and the buffer is non-empty, the buffer is emitted and the
overlap is seeded, but the sentence that triggered the boundary is never
added to any buffer or chunk: it is silently dropped. -/

/-- C1: the claim says every sentence produced by the segmenter occurs in
at least one emitted chunk.  The code violates this: on the sentence list
`["aaaa", "bbbb", "cc"]` with `chunk_size = 5`, `overlap = 2` and the
one-token-per-character codec, the emitted chunks are `["aaaa", "a cc"]`
and the sentence `"bbbb"` occurs in none of them — the sentence that
triggers a chunk boundary with a non-empty buffer is dropped. -/
theorem C1_sentence_dropped :
    smart_chunk_text charCodec ["aaaa", "bbbb", "cc"] 5 2 = ["aaaa", "a cc"] ∧
    ∀ ch ∈ smart_chunk_text charCodec ["aaaa", "bbbb", "cc"] 5 2,
      strContains ch "bbbb" = false := by
  decide

/-- C5 counterexample: the claim says every sentence whose token count
exceeds `max_tokens` is emitted intact as its own chunk.  With sentences
`["aaaa", "bbbbbbbb"]`, `chunk_size = 5`, `overlap = 2`, the oversized
sentence `"bbbbbbbb"` (8 tokens > 5) arrives while the buffer is
non-empty and is dropped: the output is `["aaaa", "a"]` and no chunk
equals the oversized sentence. -/
theorem C5_oversized_dropped :
    smart_chunk_text charCodec ["aaaa", "bbbbbbbb"] 5 2 = ["aaaa", "a"] ∧
    5 < (charCodec.encode "bbbbbbbb").length ∧
    ∀ ch ∈ smart_chunk_text charCodec ["aaaa", "bbbbbbbb"] 5 2,
      ch ≠ "bbbbbbbb" := by
  decide

/-- C5 (amended): a sentence whose token count exceeds `chunk_size` is
emitted (whitespace-stripped) as its own chunk, with an empty buffer and
no overlap carried forward, precisely when the accumulation buffer is
empty at the moment the sentence is processed — in particular when it is
the only sentence of the input. -/
theorem C5_oversized_own_chunk (enc : Codec) (chunk_size overlap : ℕ)
    (chunks : List String) (s : String)
    (h : chunk_size < (enc.encode s).length) :
    chunkStep enc chunk_size overlap (chunks, "", 0) s = (chunks ++ [pyStrip s], "", 0) ∧
    smart_chunk_text enc [s] chunk_size overlap = [pyStrip s] := by
  constructor
  · unfold chunkStep
    simp [h]
  · unfold smart_chunk_text chunkStep
    simp [h]

/-- Witness for `C5_oversized_own_chunk` at a concrete oversized sentence. -/
theorem C5_oversized_own_chunk_witness :
    5 < (charCodec.encode "bbbbbbbb").length ∧
    (chunkStep charCodec 5 2 ([], "", 0) "bbbbbbbb" = ([] ++ [pyStrip "bbbbbbbb"], "", 0) ∧
     smart_chunk_text charCodec ["bbbbbbbb"] 5 2 = [pyStrip "bbbbbbbb"]) :=
  ⟨by decide, C5_oversized_own_chunk charCodec 5 2 [] "bbbbbbbb" (by decide)⟩

/-! ## Metadata extractor (`extract_metadata`, source lines 72-102) -/

/-- The chunk metadata record built by `extract_metadata`.  The source
uses a dict with keys `source`, `aws_service`, `section`, `policy_id`;
the `section` key is rendered here as `section_title` because `section`
is a Lean keyword. -/
structure Metadata where
  source : String
  aws_service : String
  section_title : String
  policy_id : String
deriving DecidableEq, Repr

/-- The fixed AWS service vocabulary (source lines 82-83). -/
def services : List String :=
  ["S3", "EC2", "IAM", "RDS", "Lambda", "VPC", "CloudTrail", "EBS", "CloudWatch",
   "DynamoDB", "SNS", "SQS", "Kinesis", "Glue", "Athena", "Redshift", "EMR", "SageMaker"]

/-- Character class `[A-Z0-9-]` of the policy-id regular expression. -/
def isPolBody (c : Char) : Bool :=
  (65 ≤ c.toNat && c.toNat ≤ 90) || (48 ≤ c.toNat && c.toNat ≤ 57) || c = '-'

/-- Try to match the anchored regular expression `AWS-POL-[A-Z0-9-]+` at
the head of `l` (greedy body, at least one body character). -/
def polTry (l : List Char) : Option (List Char) :=
  if ("AWS-POL-".data).isPrefixOf l then
    let body := (l.drop 8).takeWhile isPolBody
    if body.isEmpty then none else some ("AWS-POL-".data ++ body)
  else none

/-- Models `re.search(r'AWS-POL-[A-Z0-9-]+', chunk)`: leftmost match. -/
def polSearch : List Char → Option (List Char)
  | [] => none
  | c :: rest =>
      match polTry (c :: rest) with
      | some m => some m
      | none => polSearch rest

/-- The `for line in lines[:5]` header scan (source lines 96-100): the
first line whose stripped form starts with `'#'` sets the section (the
`'#'` characters are stripped from the original, unstripped line) and
breaks; if no line matches, the section stays `""`. -/
def sectionScan : List String → String
  | [] => ""
  | line :: rest =>
      if pyStartsWith (pyStrip line) "#" then pyStrip (pyLstrip line '#')
      else sectionScan rest

/-- Models `extract_metadata(chunk, file_path)` (source lines 72-102). -/
def extract_metadata (chunk : String) (file_path : String) : Metadata :=
  let found_services := services.filter (fun s => strContains (pyLower chunk) (pyLower s))
  let aws_service := if found_services.isEmpty then "" else pyJoin "," found_services
  let policy_id :=
    match polSearch chunk.data with
    | some m => String.mk m
    | none => ""
  let section_title := sectionScan ((pyLines chunk).take 5)
  { source := pyBasename file_path, aws_service := aws_service,
    section_title := section_title, policy_id := policy_id }

/-! ## Claim C7: section-title extraction -/

/-- The section-title computation as the claim words it, read literally:
the first of the first five lines that *begins with* the header marker,
with the marker stripped and surrounding whitespace trimmed; `""`
(absent) when no such line exists.  Spec-reading definition, kept for
comparison with the source's `extract_metadata`. -/
def claimSectionTitle (chunk : String) : String :=
  match ((pyLines chunk).take 5).find? (fun l => pyStartsWith l "#") with
  | some l => pyStrip (pyLstrip l '#')
  | none => ""

/-- C7 counterexample: on the chunk `"  # Title"` (header marker preceded
by whitespace) the code selects the line (it tests the *stripped* line)
but strips the `'#'` from the *original* line, where it is not leading:
the resulting section title is `"# Title"`, with the marker not stripped,
whereas the claim's reading yields absent (`""`). -/
theorem C7_section_counterexample :
    (extract_metadata "  # Title" "doc.md").section_title = "# Title" ∧
    claimSectionTitle "  # Title" = "" ∧
    ("# Title" : String) ≠ "" := by
  decide

/-- C7 (amended): the extractor scans the first 5 lines of the chunk for
a line whose *whitespace-stripped* form begins with `'#'`; the section
title is the first such original line with its leading `'#'` characters
removed and the result trimmed (so a marker preceded by whitespace
survives the stripping); it is `""` (absent) when no line of that window
matches. -/
theorem C7_section_scan (chunk file_path : String) :
    (extract_metadata chunk file_path).section_title =
      match ((pyLines chunk).take 5).find? (fun l => pyStartsWith (pyStrip l) "#") with
      | some l => pyStrip (pyLstrip l '#')
      | none => "" := by
  show sectionScan ((pyLines chunk).take 5) = _
  induction (pyLines chunk).take 5 with
  | nil => rfl
  | cons line rest ih =>
      unfold sectionScan
      by_cases h : pyStartsWith (pyStrip line) "#"
      · rw [if_pos h, List.find?_cons]
        simp only [h]
      · rw [if_neg h, ih, List.find?_cons]
        simp only [h]

/-! ## Query enhancer (`enhance_query`, source lines 104-136) -/

/-- The acronym table of `enhance_query`, in the source's (dict literal)
iteration order. -/
def acronyms : List (String × String) :=
  [("S3", "Simple Storage Service"),
   ("EC2", "Elastic Compute Cloud"),
   ("IAM", "Identity and Access Management"),
   ("RDS", "Relational Database Service"),
   ("VPC", "Virtual Private Cloud"),
   ("KMS", "Key Management Service"),
   ("EBS", "Elastic Block Store"),
   ("SNS", "Simple Notification Service"),
   ("SQS", "Simple Queue Service")]

/-- The synonym table of `enhance_query`, in the source's iteration order. -/
def synonyms : List (String × List String) :=
  [("encryption", ["encrypt", "encrypted", "cipher"]),
   ("security", ["secure", "protection"]),
   ("logging", ["log", "audit"]),
   ("tagging", ["tag", "label"]),
   ("policy", ["rule", "requirement"]),
   ("compliance", ["conformance", "adherence"])]

/-- Models `enhance_query(query)` (source lines 104-136): lower-case the query,
append the expansion of every acronym contained in it, then append the
synonym set of every key contained in the (already expanded) string. -/
def enhance_query (query : String) : String :=
  let enhanced := pyLower query
  let enhanced := acronyms.foldl
    (fun e p => if strContains e (pyLower p.1) then e ++ " " ++ pyLower p.2 else e) enhanced
  synonyms.foldl
    (fun e p => if strContains e p.1 then e ++ " " ++ pyJoin " " p.2 else e) enhanced

/-! ## Claim C8: enhancement is monotone non-shrinking -/

theorem splitWsAux_nil (acc : List Char) :
    splitWsAux [] acc = if acc.isEmpty then [] else [String.mk acc.reverse] := rfl

theorem splitWsAux_cons (c : Char) (cs acc : List Char) :
    splitWsAux (c :: cs) acc =
      if isPyWs c then
        (if acc.isEmpty then splitWsAux cs [] else String.mk acc.reverse :: splitWsAux cs [])
      else splitWsAux cs (c :: acc) := rfl

theorem splitWsAux_length_pos (ys : List Char) :
    ∀ acc : List Char, acc.isEmpty = false → 1 ≤ (splitWsAux ys acc).length := by
  induction ys with
  | nil =>
      intro acc h
      rw [splitWsAux_nil, if_neg (by simp [h])]
      simp
  | cons c cs ih =>
      intro acc h
      rw [splitWsAux_cons]
      by_cases hw : isPyWs c
      · rw [if_pos hw, if_neg (by simp [h])]
        simp
      · rw [if_neg hw]
        exact ih (c :: acc) rfl

theorem splitWsAux_length_append (xs : List Char) :
    ∀ (ys acc : List Char),
      (splitWsAux xs acc).length ≤ (splitWsAux (xs ++ ys) acc).length := by
  induction xs with
  | nil =>
      intro ys acc
      rw [List.nil_append, splitWsAux_nil]
      by_cases h : acc.isEmpty
      · rw [if_pos h]; simp
      · rw [if_neg h]
        have h' : acc.isEmpty = false := by simpa using h
        simpa using splitWsAux_length_pos ys acc h'
  | cons c cs ih =>
      intro ys acc
      rw [List.cons_append, splitWsAux_cons, splitWsAux_cons]
      by_cases hw : isPyWs c
      · rw [if_pos hw, if_pos hw]
        by_cases ha : acc.isEmpty
        · rw [if_pos ha, if_pos ha]; exact ih ys []
        · rw [if_neg ha, if_neg ha]
          simpa using ih ys []
      · rw [if_neg hw, if_neg hw]
        exact ih ys (c :: acc)

/-- Word counts never shrink under appending on the right. -/
theorem wordCount_le_append (s t : String) : wordCount s ≤ wordCount (s ++ t) := by
  unfold wordCount pySplit
  rw [String.data_append]
  exact splitWsAux_length_append s.data t.data []

theorem splitWsAux_length_map_lowC (l : List Char) :
    ∀ acc₁ acc₂ : List Char, acc₁.isEmpty = acc₂.isEmpty →
      (splitWsAux (l.map lowC) acc₂).length = (splitWsAux l acc₁).length := by
  induction l with
  | nil =>
      intro acc₁ acc₂ h
      rw [List.map_nil, splitWsAux_nil, splitWsAux_nil]
      by_cases h1 : acc₁.isEmpty
      · rw [if_pos h1, if_pos (h ▸ h1)]
      · rw [if_neg h1, if_neg (h ▸ h1)]
        rfl
  | cons c cs ih =>
      intro acc₁ acc₂ h
      rw [List.map_cons, splitWsAux_cons, splitWsAux_cons, isPyWs_lowC]
      by_cases hw : isPyWs c
      · rw [if_pos hw, if_pos hw]
        by_cases h1 : acc₁.isEmpty
        · rw [if_pos h1, if_pos (h ▸ h1), ih [] [] rfl]
        · rw [if_neg h1, if_neg (h ▸ h1)]
          simp [ih [] [] rfl]
      · rw [if_neg hw, if_neg hw]
        exact ih (c :: acc₁) (lowC c :: acc₂) rfl

/-- Lower-casing does not change the whitespace-split token count. -/
theorem wordCount_pyLower (s : String) : wordCount (pyLower s) = wordCount s := by
  unfold wordCount pySplit pyLower
  exact splitWsAux_length_map_lowC s.data [] [] rfl

theorem wordCount_foldl {α : Type} (l : List α) (f : String → α → String)
    (hf : ∀ (e : String) (a : α), a ∈ l → wordCount e ≤ wordCount (f e a)) :
    ∀ e : String, wordCount e ≤ wordCount (l.foldl f e) := by
  induction l with
  | nil => intro e; exact le_refl _
  | cons a l ih =>
      intro e
      exact le_trans (hf e a (List.mem_cons_self a l))
        (ih (fun e b hb => hf e b (List.mem_cons_of_mem a hb)) (f e a))

/-- C8: query enhancement is monotone non-shrinking — for every non-empty
query `q`, the whitespace-split token count of `enhance_query q` is at
least that of `q`: the transformation lower-cases (which preserves the
count) and otherwise only appends `" " ++ terms`. -/
theorem C8_enhance_monotone (q : String) (hq : q ≠ "") :
    wordCount q ≤ wordCount (enhance_query q) := by
  unfold enhance_query
  have step1 : ∀ (e : String) (p : String × String), p ∈ acronyms →
      wordCount e ≤ wordCount (if strContains e (pyLower p.1) then e ++ " " ++ pyLower p.2 else e) := by
    intro e p _
    by_cases h : strContains e (pyLower p.1) = true
    · rw [if_pos h]
      exact le_trans (wordCount_le_append e " ") (wordCount_le_append (e ++ " ") _)
    · rw [if_neg h]
  have step2 : ∀ (e : String) (p : String × List String), p ∈ synonyms →
      wordCount e ≤ wordCount (if strContains e p.1 then e ++ " " ++ pyJoin " " p.2 else e) := by
    intro e p _
    by_cases h : strContains e p.1 = true
    · rw [if_pos h]
      exact le_trans (wordCount_le_append e " ") (wordCount_le_append (e ++ " ") _)
    · rw [if_neg h]
  refine le_trans (le_trans ?_ (wordCount_foldl acronyms _ step1 (pyLower q)))
    (wordCount_foldl synonyms _ step2 _)
  exact le_of_eq (wordCount_pyLower q).symm

/-- Witness for `C8_enhance_monotone` on the concrete query `"s3"`. -/
theorem C8_enhance_monotone_witness :
    ("s3" : String) ≠ "" ∧ wordCount "s3" ≤ wordCount (enhance_query "s3") :=
  ⟨by decide, C8_enhance_monotone "s3" (by decide)⟩

/-! ## Claim C9: enhancement is case-insensitive and lower-case -/

/-- Holds when `s` contains no ASCII uppercase letter. -/
def noUpper (s : String) : Prop :=
  ∀ c ∈ s.data, ¬(65 ≤ c.toNat ∧ c.toNat ≤ 90)

instance (s : String) : Decidable (noUpper s) := by
  unfold noUpper
  infer_instance

theorem pyLower_pyLower (s : String) : pyLower (pyLower s) = pyLower s := by
  unfold pyLower
  show String.mk ((s.data.map lowC).map lowC) = _
  rw [List.map_map]
  exact congrArg String.mk (List.map_congr_left (fun c _ => lowC_lowC c))

theorem noUpper_pyLower (s : String) : noUpper (pyLower s) := by
  intro c hc
  have hc' : c ∈ s.data.map lowC := hc
  obtain ⟨c', _, rfl⟩ := List.mem_map.mp hc'
  exact lowC_not_upper c'

theorem noUpper_append {a b : String} (ha : noUpper a) (hb : noUpper b) :
    noUpper (a ++ b) := by
  intro c hc
  rw [String.data_append] at hc
  rcases List.mem_append.mp hc with h | h
  · exact ha c h
  · exact hb c h

theorem noUpper_foldl {α : Type} (l : List α) (f : String → α → String)
    (hf : ∀ (e : String) (a : α), a ∈ l → noUpper e → noUpper (f e a)) :
    ∀ e : String, noUpper e → noUpper (l.foldl f e) := by
  induction l with
  | nil => intro e he; exact he
  | cons a l ih =>
      intro e he
      exact ih (fun e b hb => hf e b (List.mem_cons_of_mem a hb))
        (f e a) (hf e a (List.mem_cons_self a l) he)

/-- C9: query enhancement is case-insensitive in its input and fully
lower-cases its output: `enhance_query (pyLower q) = enhance_query q`,
and the enhanced string contains no ASCII uppercase character. -/
theorem C9_enhance_case_insensitive (q : String) :
    enhance_query (pyLower q) = enhance_query q ∧ noUpper (enhance_query q) := by
  constructor
  · unfold enhance_query
    rw [pyLower_pyLower]
  · unfold enhance_query
    have step1 : ∀ (e : String) (p : String × String), p ∈ acronyms → noUpper e →
        noUpper (if strContains e (pyLower p.1) then e ++ " " ++ pyLower p.2 else e) := by
      intro e p _ he
      by_cases h : strContains e (pyLower p.1) = true
      · rw [if_pos h]
        exact noUpper_append (noUpper_append he (by decide)) (noUpper_pyLower _)
      · rw [if_neg h]; exact he
    have step2 : ∀ (e : String) (p : String × List String), p ∈ synonyms → noUpper e →
        noUpper (if strContains e p.1 then e ++ " " ++ pyJoin " " p.2 else e) := by
      intro e p hp he
      by_cases h : strContains e p.1 = true
      · rw [if_pos h]
        refine noUpper_append (noUpper_append he (by decide)) ?_
        revert hp
        have : ∀ p ∈ synonyms, noUpper (pyJoin " " p.2) := by decide
        exact this p
      · rw [if_neg h]; exact he
    exact noUpper_foldl synonyms _ step2 _
      (noUpper_foldl acronyms _ step1 _ (noUpper_pyLower q))

/-! ## Python dict model

`self.chunk_data` is a Python dict; dicts preserve insertion order, and
assigning to an existing key updates it in place. -/

/-- Models `d[k] = v` on an insertion-ordered association list. -/
def dictSet {V : Type} : List (String × V) → String → V → List (String × V)
  | [], k, v => [(k, v)]
  | (k', v') :: rest, k, v =>
      if k' = k then (k', v) :: rest else (k', v') :: dictSet rest k v

/-- Models the `d[k]` lookup. -/
def dictGet {V : Type} : List (String × V) → String → Option V
  | [], _ => none
  | (k', v') :: rest, k => if k' = k then some v' else dictGet rest k

/-- Models `list(d.keys())`: the keys in insertion order. -/
def dictKeys {V : Type} (d : List (String × V)) : List String := d.map Prod.fst

theorem dictSet_of_not_mem {V : Type} {k : String} (v : V) :
    ∀ d : List (String × V), k ∉ dictKeys d → dictSet d k v = d ++ [(k, v)] := by
  intro d
  induction d with
  | nil => intro _; rfl
  | cons kv rest ih =>
      intro h
      have h1 : kv.1 ≠ k := by
        intro he
        exact h (by rw [← he]; exact List.mem_map_of_mem Prod.fst (List.mem_cons_self kv rest))
      show dictSet (kv :: rest) k v = _
      rw [show dictSet (kv :: rest) k v =
            if kv.1 = k then (kv.1, v) :: rest else (kv.1, kv.2) :: dictSet rest k v from rfl]
      rw [if_neg h1, ih (fun hm => h (List.mem_cons_of_mem _ hm))]
      rfl

theorem dictGet_at_idx {V : Type} :
    ∀ (d : List (String × V)) (i : ℕ) (kv : String × V),
      (dictKeys d).Nodup → d[i]? = some kv → dictGet d kv.1 = some kv.2 := by
  intro d
  induction d with
  | nil => intro i kv _ h; simp at h
  | cons kv' rest ih =>
      intro i kv hnd h
      match i with
      | 0 =>
          have h0 : kv' = kv := by simpa using h
          show (if kv'.1 = kv.1 then some kv'.2 else dictGet rest kv.1) = some kv.2
          rw [h0, if_pos rfl]
      | i + 1 =>
          simp only [List.getElem?_cons_succ] at h
          have hmem : kv ∈ rest := List.getElem?_mem h
          have hk : kv.1 ∈ dictKeys rest := List.mem_map_of_mem Prod.fst hmem
          have hne : kv'.1 ≠ kv.1 := by
            intro he
            have : kv'.1 ∉ dictKeys rest := (List.nodup_cons.mp hnd).1
            exact this (he ▸ hk)
          show (if kv'.1 = kv.1 then some kv'.2 else dictGet rest kv.1) = some kv.2
          rw [if_neg hne]
          exact ih i kv (List.nodup_cons.mp hnd).2 h

/-! ## Indexer (`__init__` lines 19-32, `process_documents` lines 138-189) -/

/-- A value of the chunk registry `self.chunk_data`. -/
structure ChunkData where
  content : String
  metadata : Metadata
deriving DecidableEq, Repr

/-- The in-memory state of `ImprovedRAGSystem`: `self.chunks`,
`self.chunk_data` and `self.bm25` (modelled as the tokenized corpus the
scorer was built over, `None` before any build).  `self.client`,
`self.collection`, `self.model` and `self.enc` are external
collaborators. -/
structure RAGState where
  chunks : List String
  chunk_data : List (String × ChunkData)
  bm25 : Option (List (List String))
deriving DecidableEq, Repr

/-- Models `__init__`: empty chunk list, empty registry, no BM25 scorer. -/
def initState : RAGState :=
  { chunks := [], chunk_data := [], bm25 := none }

/-- Models `chunk.lower().split()`, the tokenization used for the BM25 corpus
and the BM25 query. -/
def pyTokenize (s : String) : List String := pySplit (pyLower s)

/-- The chunk id: the md5 hexdigest of `file_path`, the chunk index and the
first 50 characters of the chunk, joined by underscores;
`hash` is the external md5 (injective on the inputs that occur, which the
alignment theorems record as a `Nodup` hypothesis). -/
def chunkIdOf (hash : String → String) (file_path : String) (p : ℕ × String) : String :=
  hash (file_path ++ "_" ++ toString p.1 ++ "_" ++ pyTake p.2 50)

/-- Body of the `for i, chunk in enumerate(chunks)` loop (source lines
159-174).  The accumulators are `(all_chunks, all_ids, chunk_data)`;
`all_embeddings`/`all_metadatas` and the embedding call only feed the
external vector store. -/
def indexChunk (hash : String → String) (file_path : String)
    (acc : List String × List String × List (String × ChunkData)) (p : ℕ × String) :
    List String × List String × List (String × ChunkData) :=
  let chunk_id := chunkIdOf hash file_path p
  let metadata := extract_metadata p.2 file_path
  (acc.1 ++ [p.2], acc.2.1 ++ [chunk_id],
   dictSet acc.2.2 chunk_id { content := p.2, metadata := metadata })

/-- Body of the `for file_path in files` loop (source lines 150-174). -/
def indexDoc (hash : String → String) (enc : Codec) (seg : String → List String)
    (acc : List String × List String × List (String × ChunkData)) (doc : String × String) :
    List String × List String × List (String × ChunkData) :=
  let chunks := smart_chunk_text enc (seg doc.2) 512 50
  chunks.enum.foldl (indexChunk hash doc.1) acc

/-- The accumulator of one bulk pass over `docs`, starting from an empty
registry. -/
def processAcc (hash : String → String) (enc : Codec) (seg : String → List String)
    (docs : List (String × String)) :
    List String × List String × List (String × ChunkData) :=
  docs.foldl (indexDoc hash enc seg) ([], [], [])

/-- Models `process_documents(docs_path)` (source lines 138-189): documents are
the `(file path, file content)` pairs produced by the external `glob` +
file reads; after the loop, `self.chunks` is replaced by this pass's
chunk list and the BM25 scorer is (re)built over
`[chunk.lower().split() for chunk in all_chunks]`. -/
def process_documents (hash : String → String) (enc : Codec) (seg : String → List String)
    (st : RAGState) (docs : List (String × String)) : RAGState :=
  let acc := docs.foldl (indexDoc hash enc seg) ([], [], st.chunk_data)
  { chunks := acc.1,
    chunk_data := acc.2.2,
    bm25 := some (acc.1.map pyTokenize) }

/-- The external BM25 scorer contract (spec §6): `BM25Okapi(corpus)` is
built over the ordered tokenized corpus and `get_scores` returns one
score per document, in build order; `scoreFn` is the opaque BM25
formula. -/
def get_scores (scoreFn : List String → List String → ℚ)
    (corpus : List (List String)) (query_tokens : List String) : List ℚ :=
  corpus.map (scoreFn query_tokens)

/-! Fold invariants of the indexing pass. -/

/-- The ids generated while indexing one document. -/
def docIds (hash : String → String) (enc : Codec) (seg : String → List String)
    (doc : String × String) : List String :=
  (smart_chunk_text enc (seg doc.2) 512 50).enum.map (chunkIdOf hash doc.1)

theorem indexChunk_fold_fst (hash : String → String) (fp : String) :
    ∀ (ps : List (ℕ × String)) (acc : List String × List String × List (String × ChunkData)),
      (ps.foldl (indexChunk hash fp) acc).1 = acc.1 ++ ps.map Prod.snd ∧
      (ps.foldl (indexChunk hash fp) acc).2.1 = acc.2.1 ++ ps.map (chunkIdOf hash fp) := by
  intro ps
  induction ps with
  | nil => intro acc; simp
  | cons p ps ih =>
      intro acc
      rw [List.foldl_cons, List.map_cons, List.map_cons]
      refine ⟨?_, ?_⟩
      · rw [(ih _).1]
        show (acc.1 ++ [p.2]) ++ ps.map Prod.snd = _
        rw [List.append_assoc]
        rfl
      · rw [(ih _).2]
        show (acc.2.1 ++ [chunkIdOf hash fp p]) ++ ps.map (chunkIdOf hash fp) = _
        rw [List.append_assoc]
        rfl

/-- Registry invariant: keys in insertion order coincide with `all_ids`,
and values in insertion order carry the texts of `all_chunks`. -/
def RegistryInv (acc : List String × List String × List (String × ChunkData)) : Prop :=
  dictKeys acc.2.2 = acc.2.1 ∧ acc.2.2.map (fun kv => kv.2.content) = acc.1

theorem indexChunk_fold_inv (hash : String → String) (fp : String) :
    ∀ (ps : List (ℕ × String)) (acc : List String × List String × List (String × ChunkData)),
      RegistryInv acc → (acc.2.1 ++ ps.map (chunkIdOf hash fp)).Nodup →
      RegistryInv (ps.foldl (indexChunk hash fp) acc) := by
  intro ps
  induction ps with
  | nil => intro acc h _; exact h
  | cons p ps ih =>
      intro acc hP hnd
      rw [List.foldl_cons]
      set k := chunkIdOf hash fp p with hk
      have hnd' : ((acc.2.1 ++ [k]) ++ ps.map (chunkIdOf hash fp)).Nodup := by
        rw [List.append_assoc]
        simpa using hnd
      have hkfresh : k ∉ acc.2.1 := by
        have : (acc.2.1 ++ [k]).Nodup := hnd'.of_append_left
        intro hmem
        exact (List.disjoint_of_nodup_append this) hmem (List.mem_singleton_self k)
      have hmapfst : List.map Prod.fst acc.2.2 = acc.2.1 := hP.1
      refine ih (indexChunk hash fp acc p) ⟨?_, ?_⟩ ?_
      · show dictKeys (dictSet acc.2.2 k _) = acc.2.1 ++ [k]
        rw [dictSet_of_not_mem _ _ (by rw [hP.1]; exact hkfresh)]
        show List.map Prod.fst (acc.2.2 ++ [(k, _)]) = acc.2.1 ++ [k]
        rw [List.map_append, hmapfst]
        rfl
      · show (dictSet acc.2.2 k _).map (fun kv => kv.2.content) = acc.1 ++ [p.2]
        rw [dictSet_of_not_mem _ _ (by rw [hP.1]; exact hkfresh)]
        rw [List.map_append, hP.2]
        rfl
      · show ((acc.2.1 ++ [k]) ++ ps.map (chunkIdOf hash fp)).Nodup
        exact hnd'

theorem indexDoc_fold_fst (hash : String → String) (enc : Codec) (seg : String → List String) :
    ∀ (docs : List (String × String)) (acc : List String × List String × List (String × ChunkData)),
      (docs.foldl (indexDoc hash enc seg) acc).1 =
        acc.1 ++ (docs.map (fun doc => smart_chunk_text enc (seg doc.2) 512 50)).flatten ∧
      (docs.foldl (indexDoc hash enc seg) acc).2.1 =
        acc.2.1 ++ (docs.map (docIds hash enc seg)).flatten := by
  intro docs
  induction docs with
  | nil => intro acc; simp
  | cons doc docs ih =>
      intro acc
      rw [List.foldl_cons, List.map_cons, List.map_cons, List.flatten_cons, List.flatten_cons]
      have hstep := indexChunk_fold_fst hash doc.1 (smart_chunk_text enc (seg doc.2) 512 50).enum acc
      refine ⟨?_, ?_⟩
      · rw [(ih _).1]
        show (indexDoc hash enc seg acc doc).1 ++ _ = _
        unfold indexDoc
        rw [hstep.1, List.enum_map_snd, List.append_assoc]
      · rw [(ih _).2]
        show (indexDoc hash enc seg acc doc).2.1 ++ _ = _
        unfold indexDoc
        rw [hstep.2, List.append_assoc]
        rfl

theorem indexDoc_fold_inv (hash : String → String) (enc : Codec) (seg : String → List String) :
    ∀ (docs : List (String × String)) (acc : List String × List String × List (String × ChunkData)),
      RegistryInv acc → (acc.2.1 ++ (docs.map (docIds hash enc seg)).flatten).Nodup →
      RegistryInv (docs.foldl (indexDoc hash enc seg) acc) := by
  intro docs
  induction docs with
  | nil => intro acc h _; exact h
  | cons doc docs ih =>
      intro acc hP hnd
      rw [List.map_cons, List.flatten_cons] at hnd
      have hnd2 : ((acc.2.1 ++ docIds hash enc seg doc) ++
          (docs.map (docIds hash enc seg)).flatten).Nodup := by
        rw [List.append_assoc]
        exact hnd
      rw [List.foldl_cons]
      have hinner : RegistryInv (indexDoc hash enc seg acc doc) := by
        unfold indexDoc
        exact indexChunk_fold_inv hash doc.1 _ acc hP hnd2.of_append_left
      refine ih _ hinner ?_
      have hids : (indexDoc hash enc seg acc doc).2.1 = acc.2.1 ++ docIds hash enc seg doc := by
        unfold indexDoc
        exact (indexChunk_fold_fst hash doc.1 _ acc).2
      rw [hids]
      exact hnd2

/-! ## Claim C2: the scorer/registry alignment invariant -/

/-- C2: after one bulk indexing pass over `docs` from a fresh state,
assuming the externally generated (md5) chunk ids are pairwise distinct,
the BM25 score list has exactly one entry per indexed chunk and entry
`i` corresponds to the chunk at registry position `i`: the `i`-th
registry key is the id of the `i`-th chunk, its registry entry carries
that chunk's text, and the `i`-th scorer document is that chunk's
tokenization — so the order fed to the scorer at build time equals the
order used at query time to map score positions back to chunk ids. -/
theorem C2_alignment (hash : String → String) (enc : Codec) (seg : String → List String)
    (docs : List (String × String))
    (hnd : (processAcc hash enc seg docs).2.1.Nodup) :
    ∃ corpus,
      (process_documents hash enc seg initState docs).bm25 = some corpus ∧
      (∀ (scoreFn : List String → List String → ℚ) (q : List String),
        (get_scores scoreFn corpus q).length =
          (process_documents hash enc seg initState docs).chunks.length) ∧
      dictKeys (process_documents hash enc seg initState docs).chunk_data =
        (processAcc hash enc seg docs).2.1 ∧
      corpus.length =
        (dictKeys (process_documents hash enc seg initState docs).chunk_data).length ∧
      (∀ i, i < (process_documents hash enc seg initState docs).chunks.length →
        ∃ key entry,
          (dictKeys (process_documents hash enc seg initState docs).chunk_data)[i]? = some key ∧
          dictGet (process_documents hash enc seg initState docs).chunk_data key = some entry ∧
          (process_documents hash enc seg initState docs).chunks[i]? = some entry.content ∧
          corpus[i]? = some (pyTokenize entry.content)) := by
  set st := process_documents hash enc seg initState docs with hst
  set acc := processAcc hash enc seg docs with hacc
  have haccdef : acc = docs.foldl (indexDoc hash enc seg) ([], [], []) := rfl
  have hfields : st.chunks = acc.1 ∧ st.chunk_data = acc.2.2 ∧
      st.bm25 = some (acc.1.map pyTokenize) := ⟨rfl, rfl, rfl⟩
  have hinv : RegistryInv acc := by
    rw [haccdef]
    refine indexDoc_fold_inv hash enc seg docs ([], [], []) ⟨rfl, rfl⟩ ?_
    have h2 := (indexDoc_fold_fst hash enc seg docs ([], [], [])).2
    rw [← haccdef] at h2
    simpa [← h2] using hnd
  have hndkeys : (dictKeys acc.2.2).Nodup := by
    rw [show dictKeys acc.2.2 = acc.2.1 from hinv.1]
    exact hnd
  have hlen2 : acc.2.2.length = acc.1.length := by
    have := congrArg List.length hinv.2
    simpa using this
  refine ⟨acc.1.map pyTokenize, hfields.2.2, ?_, ?_, ?_, ?_⟩
  · intro scoreFn q
    rw [hfields.1]
    simp [get_scores]
  · rw [hfields.2.1]
    exact hinv.1
  · rw [hfields.2.1]
    show (acc.1.map pyTokenize).length = (acc.2.2.map Prod.fst).length
    simp only [List.length_map]
    omega
  · intro i hi
    rw [hfields.1] at hi
    have hid : i < acc.2.2.length := by omega
    have hkv : acc.2.2[i]? = some acc.2.2[i] := List.getElem?_eq_getElem hid
    refine ⟨acc.2.2[i].1, acc.2.2[i].2, ?_, ?_, ?_, ?_⟩
    · rw [hfields.2.1]
      show (acc.2.2.map Prod.fst)[i]? = some acc.2.2[i].1
      rw [List.getElem?_map, hkv]
      rfl
    · rw [hfields.2.1]
      exact dictGet_at_idx acc.2.2 i acc.2.2[i] hndkeys hkv
    · rw [hfields.1, ← hinv.2, List.getElem?_map, hkv]
      rfl
    · rw [← hinv.2, List.map_map, List.getElem?_map, hkv]
      rfl

/-- Witness for `C2_alignment`: a two-document corpus indexed with the
identity in place of md5 and a one-sentence segmenter; the generated ids
are pairwise distinct. -/
theorem C2_alignment_witness :
    ((processAcc id charCodec (fun s => [s])
        [("a.md", "Hello world."), ("b.md", "S3 bucket policy.")]).2.1.Nodup) ∧
    ∃ corpus,
      (process_documents id charCodec (fun s => [s]) initState
        [("a.md", "Hello world."), ("b.md", "S3 bucket policy.")]).bm25 = some corpus := by
  have h := C2_alignment id charCodec (fun s => [s])
    [("a.md", "Hello world."), ("b.md", "S3 bucket policy.")] (by decide)
  exact ⟨by decide, h.choose, h.choose_spec.1⟩

/-! ## Hybrid retriever (`search`, source lines 191-238) -/

/-- One formatted search result (source lines 230-236). -/
structure SearchResult where
  content : String
  metadata : Metadata
  score : ℚ
deriving DecidableEq, Repr

/-- The exceptions `search` can raise.  `preconditionError` is the
`AttributeError` raised at line 206 by `self.bm25.get_scores(...)` when
`self.bm25` is still `None` (the spec's §7 error class
PreconditionError); `keyError` a `KeyError` from
`self.chunk_data[chunk_id]` (line 231); `indexError` an `IndexError`
from `list(self.chunk_data.keys())[i]` (line 219). -/
inductive SearchError where
  | preconditionError
  | keyError (k : String)
  | indexError (i : ℕ)
deriving DecidableEq, Repr

instance {ε α : Type} [DecidableEq ε] [DecidableEq α] : DecidableEq (Except ε α) := fun a b =>
  match a, b with
  | .error e, .error e' =>
      if h : e = e' then .isTrue (congrArg Except.error h)
      else .isFalse (fun hc => h (by injection hc))
  | .error _, .ok _ => .isFalse (fun hc => Except.noConfusion hc)
  | .ok _, .error _ => .isFalse (fun hc => Except.noConfusion hc)
  | .ok v, .ok v' =>
      if h : v = v' then .isTrue (congrArg Except.ok h)
      else .isFalse (fun hc => h (by injection hc))

/-- The semantic half of `combined_scores` (source lines 212-215): for
each `(chunk_id, distance)` pair of the vector-store result,
`combined_scores[chunk_id] = 0.7 * (1 - distance)`. -/
def semanticDict (semantic_results : List (String × ℚ)) : List (String × ℚ) :=
  semantic_results.foldl (fun d p => dictSet d p.1 (7/10 * (1 - p.2))) []

/-- Models `combined_scores[chunk_id] += v` if present else `= v`
(source lines 220-223). -/
def dictAdd (d : List (String × ℚ)) (k : String) (v : ℚ) : List (String × ℚ) :=
  match dictGet d k with
  | some old => dictSet d k (old + v)
  | none => dictSet d k v

/-- The BM25 half of `combined_scores` (source lines 218-223):
`for i, score in enumerate(bm25_scores)` with
`chunk_id = list(self.chunk_data.keys())[i]`; indexing past the end of
the key list raises `IndexError`. -/
def bm25Loop (keys : List String) :
    List ℚ → ℕ → List (String × ℚ) → Except SearchError (List (String × ℚ))
  | [], _, d => .ok d
  | score :: rest, i, d =>
      match keys[i]? with
      | some chunk_id => bm25Loop keys rest (i + 1) (dictAdd d chunk_id (3/10 * score))
      | none => .error (.indexError i)

/-- Python's `sorted(items, key=lambda x: x[1], reverse=True)` is a
stable descending sort; `insertDesc` places `x` before the first entry
whose score is `≤ x`'s, so `foldr insertDesc []` is that stable sort. -/
def insertDesc (x : String × ℚ) : List (String × ℚ) → List (String × ℚ)
  | [] => [x]
  | y :: ys => if y.2 ≤ x.2 then x :: y :: ys else y :: insertDesc x ys

/-- Stable sort descending by score (source line 226). -/
def pySortDesc (l : List (String × ℚ)) : List (String × ℚ) := l.foldr insertDesc []

/-- The result-formatting loop (source lines 229-236); an id missing
from the registry raises `KeyError`. -/
def formatLoop (cd : List (String × ChunkData)) :
    List (String × ℚ) → Except SearchError (List SearchResult)
  | [] => .ok []
  | (chunk_id, score) :: rest =>
      match dictGet cd chunk_id with
      | none => .error (.keyError chunk_id)
      | some data =>
          match formatLoop cd rest with
          | .error e => .error e
          | .ok res =>
              .ok ({ content := data.content, metadata := data.metadata, score := score } :: res)

/-- Models `search(query, n_results)` (source lines 191-238).  The embedding of
the enhanced query and the vector-store call
`self.collection.query(..., n_results * 3)` are external: their outcome,
the `(id, distance)` list, is the `semantic_results` parameter (ascending
distances, at most `3 * n_results` entries), and `scoreFn` is the opaque
BM25 formula behind `get_scores`.  The state is returned alongside the
results to record the method's (absence of) effects on it. -/
def search (st : RAGState) (scoreFn : List String → List String → ℚ)
    (semantic_results : List (String × ℚ)) (query : String) (n_results : ℕ) :
    Except SearchError (List SearchResult × RAGState) :=
  let enhanced_query := enhance_query query
  let query_tokens := pySplit (pyLower enhanced_query)
  match st.bm25 with
  | none => .error .preconditionError
  | some corpus =>
      let bm25_scores := get_scores scoreFn corpus query_tokens
      match bm25Loop (dictKeys st.chunk_data) bm25_scores 0 (semanticDict semantic_results) with
      | .error e => .error e
      | .ok combined_scores =>
          let sorted_items := (pySortDesc combined_scores).take n_results
          match formatLoop st.chunk_data sorted_items with
          | .error e => .error e
          | .ok formatted_results => .ok (formatted_results, st)

/-! ## Claim C6: searching before indexing raises -/

/-- C6: on a freshly constructed instance (`__init__` leaves
`self.bm25 = None`), `search` raises — `self.bm25.get_scores` on `None`
is an `AttributeError`, the spec's PreconditionError — for every query,
every vector-store reply and every `k`; in particular it never returns
an (empty) result list. -/
theorem C6_search_precondition (scoreFn : List String → List String → ℚ)
    (semantic_results : List (String × ℚ)) (query : String) (n_results : ℕ) :
    search initState scoreFn semantic_results query n_results =
      .error .preconditionError ∧
    ∀ res : List SearchResult × RAGState,
      search initState scoreFn semantic_results query n_results ≠ .ok res :=
  ⟨rfl, fun _ h => Except.noConfusion h⟩

/-! ## Claim C10: search does not mutate the indexed state -/

/-- C10: `search` is read-only — whenever it returns successfully, the
chunk list, the chunk registry and the BM25 corpus of the resulting
state are exactly those of the input state. -/
theorem C10_search_readonly (st : RAGState) (scoreFn : List String → List String → ℚ)
    (semantic_results : List (String × ℚ)) (query : String) (n_results : ℕ)
    (res : List SearchResult) (st' : RAGState)
    (h : search st scoreFn semantic_results query n_results = .ok (res, st')) :
    st'.chunks = st.chunks ∧ st'.chunk_data = st.chunk_data ∧ st'.bm25 = st.bm25 := by
  unfold search at h
  split at h
  · exact Except.noConfusion h
  · dsimp only at h
    split at h
    · exact Except.noConfusion h
    · split at h
      · exact Except.noConfusion h
      · simp only [Except.ok.injEq, Prod.mk.injEq] at h
        rw [← h.2]
        exact ⟨rfl, rfl, rfl⟩

/-- An indexed-but-empty state: the result of a bulk pass over zero
documents (`chunks = []`, empty registry, scorer built over `[]`). -/
def emptyIndexed : RAGState :=
  { chunks := [], chunk_data := [], bm25 := some [] }

/-- Witness for `C10_search_readonly` on a successful concrete search. -/
theorem C10_search_readonly_witness :
    emptyIndexed.chunks = emptyIndexed.chunks ∧
    emptyIndexed.chunk_data = emptyIndexed.chunk_data ∧
    emptyIndexed.bm25 = emptyIndexed.bm25 :=
  C10_search_readonly emptyIndexed (fun _ _ => 0) [] "q" 3 [] emptyIndexed (by decide)

/-! ## Dictionary lemmas for the fusion proofs -/

theorem dictGet_dictSet_self {V : Type} (k : String) (v : V) :
    ∀ d : List (String × V), dictGet (dictSet d k v) k = some v := by
  intro d
  induction d with
  | nil =>
      show (if k = k then some v else none) = some v
      rw [if_pos rfl]
  | cons kv rest ih =>
      show dictGet (if kv.1 = k then (kv.1, v) :: rest else (kv.1, kv.2) :: dictSet rest k v) k
        = some v
      by_cases h : kv.1 = k
      · rw [if_pos h]
        show (if kv.1 = k then some v else dictGet rest k) = some v
        rw [if_pos h]
      · rw [if_neg h]
        show (if kv.1 = k then some kv.2 else dictGet (dictSet rest k v) k) = some v
        rw [if_neg h]
        exact ih

theorem dictGet_dictSet_ne {V : Type} (k k' : String) (v : V) (hne : k' ≠ k) :
    ∀ d : List (String × V), dictGet (dictSet d k' v) k = dictGet d k := by
  intro d
  induction d with
  | nil =>
      show (if k' = k then some v else none) = none
      rw [if_neg hne]
  | cons kv rest ih =>
      show dictGet (if kv.1 = k' then (kv.1, v) :: rest else (kv.1, kv.2) :: dictSet rest k' v) k
        = dictGet (kv :: rest) k
      by_cases h : kv.1 = k'
      · rw [if_pos h]
        have h2 : kv.1 ≠ k := fun hc => hne (h ▸ hc ▸ rfl)
        show (if kv.1 = k then some v else dictGet rest k) = dictGet (kv :: rest) k
        rw [if_neg h2]
        show dictGet rest k = if kv.1 = k then some kv.2 else dictGet rest k
        rw [if_neg h2]
      · rw [if_neg h]
        show (if kv.1 = k then some kv.2 else dictGet (dictSet rest k' v) k)
          = if kv.1 = k then some kv.2 else dictGet rest k
        by_cases h2 : kv.1 = k
        · rw [if_pos h2, if_pos h2]
        · rw [if_neg h2, if_neg h2]
          exact ih

theorem dictGet_eq_none_iff {V : Type} :
    ∀ (d : List (String × V)) (k : String), dictGet d k = none ↔ k ∉ dictKeys d := by
  intro d
  induction d with
  | nil => intro k; simp [dictGet, dictKeys]
  | cons kv rest ih =>
      intro k
      show (if kv.1 = k then some kv.2 else dictGet rest k) = none ↔ _
      by_cases h : kv.1 = k
      · rw [if_pos h]
        simp [dictKeys, h.symm]
      · rw [if_neg h]
        rw [ih k]
        show k ∉ dictKeys rest ↔ k ∉ kv.1 :: dictKeys rest
        constructor
        · intro hn hc
          rcases List.mem_cons.mp hc with h1 | h1
          · exact h h1.symm
          · exact hn h1
        · intro hn hc
          exact hn (List.mem_cons_of_mem _ hc)

theorem dictSet_keys_of_mem {V : Type} (k : String) (v : V) :
    ∀ d : List (String × V), k ∈ dictKeys d → dictKeys (dictSet d k v) = dictKeys d := by
  intro d
  induction d with
  | nil => intro h; exact absurd h (by simp [dictKeys])
  | cons kv rest ih =>
      intro h
      show dictKeys (if kv.1 = k then (kv.1, v) :: rest else (kv.1, kv.2) :: dictSet rest k v)
        = dictKeys (kv :: rest)
      by_cases h1 : kv.1 = k
      · rw [if_pos h1]; rfl
      · rw [if_neg h1]
        have h2 : k ∈ dictKeys rest := by
          rcases (by simpa [dictKeys] using h : k = kv.1 ∨ k ∈ dictKeys rest) with hc | hc
          · exact absurd hc.symm h1
          · exact hc
        show kv.1 :: dictKeys (dictSet rest k v) = kv.1 :: dictKeys rest
        rw [ih h2]

theorem dictAdd_get_self (d : List (String × ℚ)) (k : String) (v : ℚ) :
    dictGet (dictAdd d k v) k = some ((dictGet d k).getD 0 + v) := by
  unfold dictAdd
  cases h : dictGet d k with
  | some old =>
      rw [dictGet_dictSet_self]
      rfl
  | none =>
      rw [dictGet_dictSet_self]
      show some v = some (0 + v)
      rw [zero_add]

theorem dictAdd_get_ne (d : List (String × ℚ)) (k k' : String) (v : ℚ) (hne : k' ≠ k) :
    dictGet (dictAdd d k' v) k = dictGet d k := by
  unfold dictAdd
  cases dictGet d k' <;> rw [dictGet_dictSet_ne _ _ _ hne]

theorem dictAdd_keys (d : List (String × ℚ)) (k : String) (v : ℚ) :
    dictKeys (dictAdd d k v) =
      if k ∈ dictKeys d then dictKeys d else dictKeys d ++ [k] := by
  unfold dictAdd
  cases h : dictGet d k with
  | some old =>
      have hk : k ∈ dictKeys d := by
        by_contra hc
        rw [(dictGet_eq_none_iff d k).mpr hc] at h
        exact Option.noConfusion h
      rw [if_pos hk, dictSet_keys_of_mem _ _ _ hk]
  | none =>
      have hk : k ∉ dictKeys d := (dictGet_eq_none_iff d k).mp h
      rw [if_neg hk, dictSet_of_not_mem _ _ hk]
      show List.map Prod.fst (d ++ [(k, v)]) = _
      rw [List.map_append]
      rfl

/-! ## Characterizations of the two fusion loops -/

theorem foldl_dictSet_fresh (f : String × ℚ → ℚ) :
    ∀ (ps : List (String × ℚ)) (d : List (String × ℚ)),
      (ps.map Prod.fst).Nodup → (∀ p ∈ ps, p.1 ∉ dictKeys d) →
      ps.foldl (fun d p => dictSet d p.1 (f p)) d = d ++ ps.map (fun p => (p.1, f p)) := by
  intro ps
  induction ps with
  | nil => intro d _ _; simp
  | cons p ps ih =>
      intro d hnd hfresh
      rw [List.foldl_cons, List.map_cons]
      have hstep : dictSet d p.1 (f p) = d ++ [(p.1, f p)] :=
        dictSet_of_not_mem _ _ (hfresh p (List.mem_cons_self p ps))
      rw [hstep, ih _ (List.nodup_cons.mp hnd).2 ?_, List.append_assoc]
      · rfl
      · intro q hq
        show q.1 ∉ dictKeys (d ++ [(p.1, f p)])
        have hq1 : q.1 ∉ dictKeys d := hfresh q (List.mem_cons_of_mem p hq)
        have hq2 : q.1 ≠ p.1 := by
          intro hc
          exact (List.nodup_cons.mp hnd).1 (hc ▸ List.mem_map_of_mem Prod.fst hq)
        intro hc
        rcases (by simpa [dictKeys] using hc : q.1 ∈ dictKeys d ∨ q.1 = p.1) with h | h
        · exact hq1 h
        · exact hq2 h

theorem semanticDict_eq (sem : List (String × ℚ)) (hs : (sem.map Prod.fst).Nodup) :
    semanticDict sem = sem.map (fun p => (p.1, 7/10 * (1 - p.2))) := by
  unfold semanticDict
  rw [foldl_dictSet_fresh _ sem [] hs (by intro p _; simp [dictKeys])]
  rfl

theorem dictGet_map_pairs (f : String × ℚ → ℚ) :
    ∀ (ps : List (String × ℚ)) (k : String),
      dictGet (ps.map (fun p => (p.1, f p))) k = (ps.find? (fun p => p.1 = k)).map f := by
  intro ps
  induction ps with
  | nil => intro k; rfl
  | cons p ps ih =>
      intro k
      show (if p.1 = k then some (f p) else dictGet (ps.map _) k) = _
      rw [List.find?_cons]
      by_cases h : p.1 = k
      · simp [h]
      · simp [h, ih]

theorem bm25Loop_ok (keys : List String) :
    ∀ (scores : List ℚ) (i : ℕ) (d : List (String × ℚ)),
      i + scores.length ≤ keys.length →
      bm25Loop keys scores i d =
        .ok (((keys.drop i).zip scores).foldl
          (fun d p => dictAdd d p.1 (3/10 * p.2)) d) := by
  intro scores
  induction scores with
  | nil => intro i d _; simp [bm25Loop]
  | cons s ss ih =>
      intro i d hle
      have hi : i < keys.length := by
        simp only [List.length_cons] at hle
        omega
      rw [show bm25Loop keys (s :: ss) i d =
            (match keys[i]? with
             | some chunk_id => bm25Loop keys ss (i + 1) (dictAdd d chunk_id (3/10 * s))
             | none => .error (.indexError i)) from rfl]
      rw [List.getElem?_eq_getElem hi]
      show bm25Loop keys ss (i + 1) (dictAdd d keys[i] (3/10 * s)) = _
      rw [List.drop_eq_getElem_cons hi, List.zip_cons_cons, List.foldl_cons]
      exact ih (i + 1) _ (by simp only [List.length_cons] at hle; omega)

theorem addFold_get :
    ∀ (ps : List (String × ℚ)) (d : List (String × ℚ)) (k : String),
      (ps.map Prod.fst).Nodup →
      dictGet (ps.foldl (fun d p => dictAdd d p.1 (3/10 * p.2)) d) k =
        match ps.find? (fun p => p.1 = k) with
        | some p => some ((dictGet d k).getD 0 + 3/10 * p.2)
        | none => dictGet d k := by
  intro ps
  induction ps with
  | nil => intro d k _; rfl
  | cons p ps ih =>
      intro d k hnd
      rw [List.foldl_cons]
      by_cases h : p.1 = k
      · have hfind : List.find? (fun q => q.1 = k) (p :: ps) = some p := by
          rw [List.find?_cons]
          simp [h]
        rw [hfind, ih _ _ (List.nodup_cons.mp hnd).2]
        have hfn : ps.find? (fun q => q.1 = k) = none := by
          rw [List.find?_eq_none]
          intro q hq
          simp only [decide_eq_true_eq]
          intro hc
          have hmem : q.1 ∈ ps.map Prod.fst := List.mem_map_of_mem Prod.fst hq
          rw [hc, ← h] at hmem
          exact (List.nodup_cons.mp hnd).1 hmem
        rw [hfn, ← h, dictAdd_get_self]
      · have hfind : List.find? (fun q => q.1 = k) (p :: ps) = ps.find? (fun q => q.1 = k) := by
          rw [List.find?_cons]
          simp [h]
        rw [hfind, ih _ _ (List.nodup_cons.mp hnd).2, dictAdd_get_ne _ _ _ _ h]

theorem find?_zip_self :
    ∀ (keys : List String) (scores : List ℚ) (i : ℕ) (hi : i < keys.length)
      (hi2 : i < scores.length), keys.Nodup →
      (keys.zip scores).find? (fun p => p.1 = keys[i]) = some (keys[i], scores[i]) := by
  intro keys
  induction keys with
  | nil => intro scores i hi; exact absurd hi (by simp)
  | cons a keys ih =>
      intro scores i hi hi2 hnd
      cases scores with
      | nil => exact absurd hi2 (by simp)
      | cons s ss =>
          cases i with
          | zero =>
              show ((a, s) :: keys.zip ss).find? (fun p => p.1 = a) = some (a, s)
              rw [List.find?_cons]
              simp
          | succ i =>
              have hi' : i < keys.length := by simpa using hi
              have hi2' : i < ss.length := by simpa using hi2
              have hne : a ≠ keys[i] := by
                intro hc
                exact (List.nodup_cons.mp hnd).1 (hc ▸ keys.getElem_mem hi')
              show ((a, s) :: keys.zip ss).find? (fun p => p.1 = keys[i]) = some (keys[i], ss[i])
              rw [List.find?_cons]
              have hd : decide (((a, s) : String × ℚ).1 = keys[i]) = false := by
                simp [hne]
              rw [hd]
              show (keys.zip ss).find? (fun p => p.1 = keys[i]) = some (keys[i], ss[i])
              exact ih ss i hi' hi2' (List.nodup_cons.mp hnd).2

/-! ## Claim C4: the fusion formula -/

/-- C4: for every registry chunk, the combined score built by `search`
(the semantic pass over `semantic_results` followed by the BM25 pass
over the registry keys) equals `0.7 * (1 - distance)` — where `distance`
is the vector store's reported distance for that chunk, the term being 0
when the chunk is absent from the semantic result set — plus `0.3 *` the
chunk's BM25 score at its registry position. -/
theorem C4_fusion_formula (st : RAGState) (scoreFn : List String → List String → ℚ)
    (sem : List (String × ℚ)) (q : String) (corpus : List (List String))
    (hclen : corpus.length = (dictKeys st.chunk_data).length)
    (hknd : (dictKeys st.chunk_data).Nodup)
    (hsnd : (sem.map Prod.fst).Nodup) :
    ∃ combined,
      bm25Loop (dictKeys st.chunk_data)
        (get_scores scoreFn corpus (pySplit (pyLower (enhance_query q)))) 0
        (semanticDict sem) = .ok combined ∧
      ∀ i (hi : i < (dictKeys st.chunk_data).length) (hic : i < corpus.length),
        dictGet combined (dictKeys st.chunk_data)[i] =
          some ((match sem.find? (fun p => p.1 = (dictKeys st.chunk_data)[i]) with
                 | some p => 7/10 * (1 - p.2)
                 | none => 0) +
            3/10 * scoreFn (pySplit (pyLower (enhance_query q))) corpus[i]) := by
  have hslen : (get_scores scoreFn corpus (pySplit (pyLower (enhance_query q)))).length
      = (dictKeys st.chunk_data).length := by
    simp [get_scores, hclen]
  have hok := bm25Loop_ok (dictKeys st.chunk_data)
    (get_scores scoreFn corpus (pySplit (pyLower (enhance_query q)))) 0
    (semanticDict sem) (by omega)
  rw [List.drop_zero] at hok
  refine ⟨_, hok, ?_⟩
  intro i hi hic
  have hzn : (((dictKeys st.chunk_data).zip
      (get_scores scoreFn corpus (pySplit (pyLower (enhance_query q))))).map Prod.fst).Nodup := by
    rw [List.map_fst_zip _ _ (by omega)]
    exact hknd
  rw [addFold_get _ _ _ hzn]
  rw [find?_zip_self _ _ i hi (by omega) hknd]
  have hib : i < (get_scores scoreFn corpus (pySplit (pyLower (enhance_query q)))).length := by
    omega
  have hscore : (get_scores scoreFn corpus (pySplit (pyLower (enhance_query q))))[i]
      = scoreFn (pySplit (pyLower (enhance_query q))) (corpus[i]) := by
    simp [get_scores]
  rw [hscore, semanticDict_eq sem hsnd, dictGet_map_pairs]
  cases sem.find? (fun p => p.1 = (dictKeys st.chunk_data)[i]) <;> rfl

/-- A small indexed state used by the retrieval witnesses. -/
def wMeta : Metadata :=
  { source := "", aws_service := "", section_title := "", policy_id := "" }

/-- A two-chunk indexed state used by the retrieval witnesses and
counterexamples. -/
def twoChunkState : RAGState :=
  { chunks := ["ta", "tb"],
    chunk_data := [("A", { content := "ta", metadata := wMeta }),
                   ("B", { content := "tb", metadata := wMeta })],
    bm25 := some [["ta"], ["tb"]] }

/-- Witness for `C4_fusion_formula` on a concrete two-chunk state. -/
theorem C4_fusion_formula_witness :
    (([["ta"], ["tb"]] : List (List String)).length
        = (dictKeys twoChunkState.chunk_data).length ∧
     (dictKeys twoChunkState.chunk_data).Nodup ∧
     (([("A", (1/2 : ℚ))].map Prod.fst).Nodup)) ∧
    ∃ combined,
      bm25Loop (dictKeys twoChunkState.chunk_data)
        (get_scores (fun _ _ => (0 : ℚ)) [["ta"], ["tb"]]
          (pySplit (pyLower (enhance_query "q")))) 0
        (semanticDict [("A", (1/2 : ℚ))]) = .ok combined := by
  have h := C4_fusion_formula twoChunkState (fun _ _ => (0 : ℚ)) [("A", (1/2 : ℚ))] "q"
    [["ta"], ["tb"]] (by decide) (by decide) (by decide)
  exact ⟨⟨by decide, by decide, by decide⟩, h.choose, h.choose_spec.1⟩

/-! ## Properties of the stable descending sort -/

theorem insertDesc_perm (x : String × ℚ) :
    ∀ l : List (String × ℚ), (insertDesc x l).Perm (x :: l) := by
  intro l
  induction l with
  | nil => exact List.Perm.refl _
  | cons y ys ih =>
      show (if y.2 ≤ x.2 then x :: y :: ys else y :: insertDesc x ys).Perm (x :: y :: ys)
      by_cases h : y.2 ≤ x.2
      · rw [if_pos h]
      · rw [if_neg h]
        exact (ih.cons y).trans (List.Perm.swap x y ys)

theorem pySortDesc_perm (l : List (String × ℚ)) : (pySortDesc l).Perm l := by
  induction l with
  | nil => exact List.Perm.refl _
  | cons x l ih =>
      show (insertDesc x (pySortDesc l)).Perm (x :: l)
      exact (insertDesc_perm x _).trans (ih.cons x)

theorem insertDesc_pairwise (x : String × ℚ) :
    ∀ l : List (String × ℚ), l.Pairwise (fun a b => b.2 ≤ a.2) →
      (insertDesc x l).Pairwise (fun a b => b.2 ≤ a.2) := by
  intro l
  induction l with
  | nil => intro _; exact List.pairwise_singleton _ _
  | cons y ys ih =>
      intro h
      show (if y.2 ≤ x.2 then x :: y :: ys else y :: insertDesc x ys).Pairwise _
      by_cases hle : y.2 ≤ x.2
      · rw [if_pos hle]
        refine List.Pairwise.cons ?_ h
        intro z hz
        rcases List.mem_cons.mp hz with rfl | hz'
        · exact hle
        · exact le_trans ((List.pairwise_cons.mp h).1 z hz') hle
      · rw [if_neg hle]
        refine List.Pairwise.cons ?_ (ih (List.pairwise_cons.mp h).2)
        intro z hz
        have hz2 : z ∈ x :: ys := (insertDesc_perm x ys).mem_iff.mp hz
        rcases List.mem_cons.mp hz2 with rfl | hz'
        · exact le_of_lt (lt_of_not_le hle)
        · exact (List.pairwise_cons.mp h).1 z hz'

theorem pySortDesc_pairwise (l : List (String × ℚ)) :
    (pySortDesc l).Pairwise (fun a b => b.2 ≤ a.2) := by
  induction l with
  | nil => exact List.Pairwise.nil
  | cons x l ih => exact insertDesc_pairwise x _ ih

theorem insertDesc_filter (x : String × ℚ) (s : ℚ) :
    ∀ l : List (String × ℚ),
      (insertDesc x l).filter (fun p => p.2 = s) =
        if x.2 = s then x :: l.filter (fun p => p.2 = s)
        else l.filter (fun p => p.2 = s) := by
  intro l
  induction l with
  | nil =>
      show [x].filter _ = _
      by_cases h : x.2 = s
      · simp [List.filter_cons, h]
      · simp [List.filter_cons, h]
  | cons y ys ih =>
      show (if y.2 ≤ x.2 then x :: y :: ys else y :: insertDesc x ys).filter _ = _
      by_cases hle : y.2 ≤ x.2
      · rw [if_pos hle]
        by_cases h : x.2 = s
        · simp [List.filter_cons, h]
        · simp [List.filter_cons, h]
      · rw [if_neg hle]
        by_cases h : x.2 = s
        · have hy : ¬(y.2 = s) := by
            intro hc
            exact hle (le_of_eq (hc.trans h.symm))
          simp [List.filter_cons, hy, ih, h]
        · simp [List.filter_cons, ih, h]

/-- Stability of the sort: entries of any fixed score appear in the
sorted list in exactly their original order. -/
theorem pySortDesc_filter (s : ℚ) :
    ∀ l : List (String × ℚ),
      (pySortDesc l).filter (fun p => p.2 = s) = l.filter (fun p => p.2 = s) := by
  intro l
  induction l with
  | nil => rfl
  | cons x l ih =>
      show (insertDesc x (pySortDesc l)).filter _ = _
      rw [insertDesc_filter]
      by_cases h : x.2 = s
      · rw [if_pos h, ih]
        simp [List.filter_cons, h]
      · rw [if_neg h, ih]
        simp [List.filter_cons, h]

/-! ## Key order of the combined-score dict -/

theorem addFold_keys :
    ∀ (ps : List (String × ℚ)) (d : List (String × ℚ)),
      (ps.map Prod.fst).Nodup →
      dictKeys (ps.foldl (fun d p => dictAdd d p.1 (3/10 * p.2)) d) =
        dictKeys d ++ (ps.map Prod.fst).filter (fun x => decide (x ∉ dictKeys d)) := by
  intro ps
  induction ps with
  | nil => intro d _; simp
  | cons p ps ih =>
      intro d hnd
      rw [List.foldl_cons, ih _ (List.nodup_cons.mp hnd).2]
      simp only [dictAdd_keys]
      by_cases h : p.1 ∈ dictKeys d
      · simp only [if_pos h, List.map_cons, List.filter_cons]
        rw [show (decide (p.1 ∉ dictKeys d)) = false by simp [h]]
        simp
      · simp only [if_neg h, List.map_cons, List.filter_cons]
        rw [show (decide (p.1 ∉ dictKeys d)) = true by simp [h]]
        have hcongr : (ps.map Prod.fst).filter (fun x => decide (x ∉ dictKeys d ++ [p.1]))
            = (ps.map Prod.fst).filter (fun x => decide (x ∉ dictKeys d)) := by
          apply List.filter_congr
          intro x hx
          have hxne : x ≠ p.1 := by
            intro hc
            exact (List.nodup_cons.mp hnd).1 (hc ▸ hx)
          simp [List.mem_append, hxne]
        rw [hcongr, List.append_assoc]
        simp

theorem semanticDict_keys (sem : List (String × ℚ)) (hs : (sem.map Prod.fst).Nodup) :
    dictKeys (semanticDict sem) = sem.map Prod.fst := by
  rw [semanticDict_eq sem hs]
  show (sem.map _).map Prod.fst = _
  rw [List.map_map]
  rfl

theorem combined_keys_perm (registry semIds : List String) (hknd : registry.Nodup)
    (hsnd : semIds.Nodup) (hsub : ∀ x ∈ semIds, x ∈ registry) :
    (semIds ++ registry.filter (fun x => decide (x ∉ semIds))).Perm registry := by
  have h1 : (registry.filter (fun x => decide (x ∈ semIds)) ++
      registry.filter (fun x => !decide (x ∈ semIds))).Perm registry :=
    List.filter_append_perm _ registry
  have hfe : registry.filter (fun x => decide (x ∉ semIds)) =
      registry.filter (fun x => !decide (x ∈ semIds)) := by
    apply List.filter_congr
    intro x _
    simp
  have h2 : semIds.Perm (registry.filter (fun x => decide (x ∈ semIds))) := by
    apply List.Subperm.antisymm
    · apply List.Nodup.subperm hsnd
      intro x hx
      rw [List.mem_filter]
      exact ⟨hsub x hx, by simpa using hx⟩
    · apply List.Nodup.subperm (hknd.filter _)
      intro x hx
      have := (List.mem_filter.mp hx).2
      simpa using this
  rw [hfe]
  exact (h2.append_right _).trans h1

/-! ## Formatting loop -/

theorem forall₂_mem_left {α β : Type} {R : α → β → Prop} :
    ∀ {l₁ : List α} {l₂ : List β}, List.Forall₂ R l₁ l₂ → ∀ a ∈ l₁, ∃ b ∈ l₂, R a b := by
  intro l₁ l₂ h
  induction h with
  | nil => intro a ha; exact absurd ha (by simp)
  | cons hr hl ih =>
      intro a ha
      rcases List.mem_cons.mp ha with rfl | ha'
      · exact ⟨_, List.mem_cons_self _ _, hr⟩
      · obtain ⟨b, hb, hrb⟩ := ih a ha'
        exact ⟨b, List.mem_cons_of_mem _ hb, hrb⟩

theorem pairwise_of_forall₂ {α β : Type} {R : α → β → Prop} {P : β → β → Prop}
    {Q : α → α → Prop} (hcomp : ∀ a b a' b', R a b → R a' b' → P b b' → Q a a') :
    ∀ {l₁ : List α} {l₂ : List β}, List.Forall₂ R l₁ l₂ → l₂.Pairwise P → l₁.Pairwise Q := by
  intro l₁ l₂ h
  induction h with
  | nil => intro _; exact List.Pairwise.nil
  | @cons a b l₁' l₂' hr hl ih =>
      intro hp
      refine List.Pairwise.cons ?_ (ih (List.pairwise_cons.mp hp).2)
      intro a' ha'
      obtain ⟨b', hb', hrb⟩ := forall₂_mem_left hl a' ha'
      exact hcomp a b a' b' hr hrb ((List.pairwise_cons.mp hp).1 b' hb')

theorem formatLoop_ok (cd : List (String × ChunkData)) :
    ∀ items : List (String × ℚ),
      (∀ p ∈ items, p.1 ∈ dictKeys cd) →
      ∃ res, formatLoop cd items = .ok res ∧
        List.Forall₂ (fun (r : SearchResult) (p : String × ℚ) =>
          r.score = p.2 ∧
          dictGet cd p.1 = some { content := r.content, metadata := r.metadata })
          res items := by
  intro items
  induction items with
  | nil => intro _; exact ⟨[], rfl, List.Forall₂.nil⟩
  | cons p rest ih =>
      intro hmem
      have hget : dictGet cd p.1 ≠ none := by
        intro h0
        exact ((dictGet_eq_none_iff cd p.1).mp h0) (hmem p (List.mem_cons_self p rest))
      obtain ⟨data, hdata⟩ := Option.ne_none_iff_exists'.mp hget
      obtain ⟨res, hres, hf⟩ := ih (fun q hq => hmem q (List.mem_cons_of_mem p hq))
      refine ⟨{ content := data.content, metadata := data.metadata, score := p.2 } :: res,
        ?_, ?_⟩
      · have hstep : formatLoop cd (p :: rest) =
            match dictGet cd p.1 with
            | none => .error (.keyError p.1)
            | some data =>
                match formatLoop cd rest with
                | .error e => .error e
                | .ok res =>
                    .ok ({ content := data.content, metadata := data.metadata,
                           score := p.2 } :: res) := rfl
        rw [hstep, hdata, hres]
      · exact List.Forall₂.cons ⟨rfl, by rw [hdata]⟩ hf

/-- Unfolding equation of `search` on the success path. -/
theorem search_eq (st : RAGState) (scoreFn : List String → List String → ℚ)
    (sem : List (String × ℚ)) (q : String) (k : ℕ)
    (corpus : List (List String)) (combined : List (String × ℚ)) (res : List SearchResult)
    (hb : st.bm25 = some corpus)
    (hok : bm25Loop (dictKeys st.chunk_data)
      (get_scores scoreFn corpus (pySplit (pyLower (enhance_query q)))) 0
      (semanticDict sem) = .ok combined)
    (hfmt : formatLoop st.chunk_data ((pySortDesc combined).take k) = .ok res) :
    search st scoreFn sem q k = .ok (res, st) := by
  unfold search
  simp only [hb]
  simp only [hok]
  simp only [hfmt]

/-! ## Claim C3: ranking, tie-breaking and truncation of `search` -/

/-- A one-chunk indexed state for the zero-score counterexample. -/
def oneChunkState : RAGState :=
  { chunks := ["ta"],
    chunk_data := [("A", { content := "ta", metadata := wMeta })],
    bm25 := some [["ta"]] }

/-- C3 counterexample, refuting two parts of the claim at concrete
inputs.  (1) Tie-breaking is *not* by registry insertion order: in
`twoChunkState` the registry order is `A` before `B`, both chunks end
with the equal combined score `7/20`, yet `search` returns `B`'s chunk
first, because Python's stable sort preserves the `combined_scores`
dict order, which lists semantic hits in vector-store order first.
(2) Chunks with combined score zero are *not* excluded: on
`oneChunkState` with no semantic hit and a zero BM25 score, the claim
implies the empty result, but `search` returns the zero-scored chunk. -/
theorem C3_search_counterexample :
    (dictKeys twoChunkState.chunk_data = ["A", "B"] ∧
     search twoChunkState (fun _ _ => 0) [("B", (1/2 : ℚ)), ("A", (1/2 : ℚ))] "q" 3 =
       .ok ([{ content := "tb", metadata := wMeta, score := 7/20 },
             { content := "ta", metadata := wMeta, score := 7/20 }], twoChunkState)) ∧
    search oneChunkState (fun _ _ => 0) [] "q" 3 =
      .ok ([{ content := "ta", metadata := wMeta, score := 0 }], oneChunkState) := by
  refine ⟨⟨by decide, ?_⟩, ?_⟩ <;> with_unfolding_all decide

/-- C3 (amended): on a well-formed indexed state, `search` succeeds and
returns `min k N` results (`N` = number of registry chunks; chunks with
zero combined score are *not* filtered out), ordered descending by
combined score, where the underlying item list is the `k`-truncated
stable descending sort of the combined-score dict; that dict holds the
semantic-branch hits first, in vector-store order, followed by the
remaining registry chunks in registry order, and ties (equal scores)
are returned in that dict order — not in registry order. -/
theorem C3_search_ranking (st : RAGState) (scoreFn : List String → List String → ℚ)
    (sem : List (String × ℚ)) (q : String) (k : ℕ) (corpus : List (List String))
    (hb : st.bm25 = some corpus)
    (hclen : corpus.length = (dictKeys st.chunk_data).length)
    (hknd : (dictKeys st.chunk_data).Nodup)
    (hsnd : (sem.map Prod.fst).Nodup)
    (hsub : ∀ p ∈ sem, p.1 ∈ dictKeys st.chunk_data) :
    ∃ combined res,
      bm25Loop (dictKeys st.chunk_data)
        (get_scores scoreFn corpus (pySplit (pyLower (enhance_query q)))) 0
        (semanticDict sem) = .ok combined ∧
      search st scoreFn sem q k = .ok (res, st) ∧
      dictKeys combined =
        sem.map Prod.fst ++
          (dictKeys st.chunk_data).filter (fun x => decide (x ∉ sem.map Prod.fst)) ∧
      (dictKeys combined).Perm (dictKeys st.chunk_data) ∧
      res.length = min k (dictKeys st.chunk_data).length ∧
      res.Pairwise (fun a b => b.score ≤ a.score) ∧
      List.Forall₂ (fun (r : SearchResult) (p : String × ℚ) =>
        r.score = p.2 ∧
        dictGet st.chunk_data p.1 = some { content := r.content, metadata := r.metadata })
        res ((pySortDesc combined).take k) ∧
      (∀ s : ℚ, (pySortDesc combined).filter (fun p => p.2 = s) =
        combined.filter (fun p => p.2 = s)) := by
  have hslen : (get_scores scoreFn corpus (pySplit (pyLower (enhance_query q)))).length
      = (dictKeys st.chunk_data).length := by
    simp [get_scores, hclen]
  have hok := bm25Loop_ok (dictKeys st.chunk_data)
    (get_scores scoreFn corpus (pySplit (pyLower (enhance_query q)))) 0
    (semanticDict sem) (by omega)
  rw [List.drop_zero] at hok
  set combined := (((dictKeys st.chunk_data).zip
    (get_scores scoreFn corpus (pySplit (pyLower (enhance_query q))))).foldl
      (fun d p => dictAdd d p.1 (3/10 * p.2)) (semanticDict sem)) with hcdef
  have hzfst : ((dictKeys st.chunk_data).zip
      (get_scores scoreFn corpus (pySplit (pyLower (enhance_query q))))).map Prod.fst
      = dictKeys st.chunk_data :=
    List.map_fst_zip _ _ (by omega)
  have hzn : (((dictKeys st.chunk_data).zip
      (get_scores scoreFn corpus (pySplit (pyLower (enhance_query q))))).map Prod.fst).Nodup := by
    rw [hzfst]
    exact hknd
  have hkeysC : dictKeys combined =
      sem.map Prod.fst ++
        (dictKeys st.chunk_data).filter (fun x => decide (x ∉ sem.map Prod.fst)) := by
    rw [hcdef, addFold_keys _ _ hzn]
    simp only [semanticDict_keys sem hsnd, hzfst]
  have hperm : (dictKeys combined).Perm (dictKeys st.chunk_data) := by
    rw [hkeysC]
    refine combined_keys_perm _ _ hknd hsnd ?_
    intro x hx
    obtain ⟨p, hp, rfl⟩ := List.mem_map.mp hx
    exact hsub p hp
  have hsubitems : ∀ p ∈ (pySortDesc combined).take k, p.1 ∈ dictKeys st.chunk_data := by
    intro p hp
    have h1 : p ∈ pySortDesc combined := List.mem_of_mem_take hp
    have h2 : p ∈ combined := (pySortDesc_perm combined).mem_iff.mp h1
    have h3 : p.1 ∈ dictKeys combined := List.mem_map_of_mem Prod.fst h2
    exact hperm.mem_iff.mp h3
  obtain ⟨res, hres, hf⟩ := formatLoop_ok st.chunk_data _ hsubitems
  refine ⟨combined, res, hok, search_eq st scoreFn sem q k corpus combined res hb hok hres,
    hkeysC, hperm, ?_, ?_, hf, fun s => pySortDesc_filter s combined⟩
  · rw [hf.length_eq, List.length_take]
    have hl1 : (pySortDesc combined).length = combined.length :=
      (pySortDesc_perm combined).length_eq
    have hl2 : (dictKeys combined).length = combined.length := by
      simp [dictKeys]
    have hl3 : (dictKeys combined).length = (dictKeys st.chunk_data).length :=
      hperm.length_eq
    omega
  · refine pairwise_of_forall₂ ?_ hf
      (List.Pairwise.sublist (List.take_sublist k _) (pySortDesc_pairwise combined))
    intro a b a' b' hr hr' hp
    rw [hr.1, hr'.1]
    exact hp

/-- Witness for `C3_search_ranking` on a concrete two-chunk state with
one semantic hit. -/
theorem C3_search_ranking_witness :
    (twoChunkState.bm25 = some [["ta"], ["tb"]] ∧
     ([["ta"], ["tb"]] : List (List String)).length
        = (dictKeys twoChunkState.chunk_data).length ∧
     (dictKeys twoChunkState.chunk_data).Nodup ∧
     (([("B", (1/2 : ℚ))].map Prod.fst).Nodup) ∧
     (∀ p ∈ [("B", (1/2 : ℚ))], p.1 ∈ dictKeys twoChunkState.chunk_data)) ∧
    ∃ combined res,
      bm25Loop (dictKeys twoChunkState.chunk_data)
        (get_scores (fun _ _ => (0 : ℚ)) [["ta"], ["tb"]]
          (pySplit (pyLower (enhance_query "q")))) 0
        (semanticDict [("B", (1/2 : ℚ))]) = .ok combined ∧
      search twoChunkState (fun _ _ => (0 : ℚ)) [("B", (1/2 : ℚ))] "q" 2 =
        .ok (res, twoChunkState) := by
  have h := C3_search_ranking twoChunkState (fun _ _ => (0 : ℚ)) [("B", (1/2 : ℚ))] "q" 2
    [["ta"], ["tb"]] rfl (by decide) (by decide) (by decide) (by decide)
  obtain ⟨c, r, h1, h2, _⟩ := h
  exact ⟨⟨rfl, by decide, by decide, by decide, by decide⟩, c, r, h1, h2⟩

end RAGSys
